import Mathlib

/-!
Verification of the m3u8 cutter (`src/main.py`) against its specification.

The shallow embedding models:
* a playlist line after `line.strip()` as an `MLine` record carrying exactly
  the attributes the program inspects: whether the line starts with
  `"#EXTINF"` (`isExtinf`), the duration parsed from a well-formed
  duration-annotation line (`dur`, Python `float` modelled as `ℚ`), whether
  the line ends with `".ts"` (`endsTs`), and the stripped line text (`raw`);
* `filter_segments` as a structural recursion over the enumerated line list
  (the source iterates `for i, line in enumerate(lines)`), threading
  `total_time`, `inside_range` and `add_start` exactly as the source does;
* `write_output` as the list of text lines written to the output file
  (one list element per `output.write(... + "\n")` call);
* `time_to_seconds` over the character list of the argument string, with
  Python's `str.split(":")` and `int(...)` modelled by `splitOnChar` and
  `pyInt` (sign plus decimal digits; Python's whitespace/underscore/Unicode
  leniencies in `int` are not exercised by any claim and are not modelled);
* `parse_m3u8` as a trace semantics: the ordered list of I/O events
  (network GET, output-file write) it performs together with its outcome.
  The network response is a parameter (`net = none` models a
  `requests.RequestException`, `net = some lines` a 2xx body whose
  `splitlines()` is already classified into `MLine`s); the `urljoin`-derived
  base URL is likewise passed as a parameter, since `urljoin` is Python
  standard-library code outside this repository.
-/

/-- A playlist line after `strip()`, reduced to the attributes inspected by
`filter_segments` / `write_output` in `src/main.py`.  For a well-formed
duration-annotation line, `dur` is the value of
`float(line.split(":")[1].rstrip(","))`. -/
structure MLine where
  isExtinf : Bool
  dur : ℚ
  endsTs : Bool
  raw : String
deriving DecidableEq

/-- The latch `if total_time >= start_seconds: inside_range = True`
(src/main.py lines 56-57). -/
def latch (s total : ℚ) (inside : Bool) : Bool :=
  if s ≤ total then true else inside

/-- The loop body of `filter_segments` (src/main.py lines 40-77), over the
enumerated lines, threading the `total_time`, `inside_range` and `add_start`
state.  `break` is modelled by returning `[]` for the rest of the scan.  (In
the source `inside_range` is latched before the break test; the two commute,
since breaking discards all state.) -/
def filterGo : List (ℕ × MLine) → ℚ → ℚ → ℚ → Bool → Bool → List (ℕ × MLine)
  | [], _, _, _, _, _ => []
  | (i, l) :: rest, s, e, total, inside, addStart =>
    if l.isExtinf then
      -- add_start = False; duration extracted; inside_range latched
      let inside' := latch s total inside
      if e ≤ total then []   -- break: stop recording entirely
      else
        (if inside' then [(i, l)] else []) ++
        (if inside' && l.endsTs then [(i, l)] else []) ++
        filterGo rest s e (total + l.dur) inside' false
    else
      (if addStart then [(i, l)] else []) ++
      (if inside && l.endsTs then [(i, l)] else []) ++
      filterGo rest s e total inside addStart

/-- The kept (position, line) pairs of a `filter_segments` run started in the
initial state `total_time = 0`, `inside_range = False`, `add_start = True`. -/
def keptPairs (lines : List MLine) (s e : ℚ) : List (ℕ × MLine) :=
  filterGo lines.enum s e 0 false true

/-- `filter_segments(lines, start_seconds, end_seconds)` from src/main.py. -/
def filter_segments (lines : List MLine) (s e : ℚ) : List MLine :=
  (keptPairs lines s e).map Prod.snd

/-- `write_output` (src/main.py lines 80-89) as the list of text lines written
to the output file, in order: each `.ts`-suffixed line becomes
`f"{base_url}/{line}"`, every other line is written verbatim, and the
`#EXT-X-ENDLIST` directive is written last. -/
def write_output : List MLine → String → List String
  | [], _ => ["#EXT-X-ENDLIST"]
  | l :: rest, baseUrl =>
    (if l.endsTs then baseUrl ++ "/" ++ l.raw else l.raw) :: write_output rest baseUrl

/-- Python `str.split(sep)` for a one-character separator, over the character
list of the string.  `"".split(":") = [""]` and separators at the ends
produce empty components, as in Python. -/
def splitOnChar (sep : Char) : List Char → List (List Char)
  | [] => [[]]
  | c :: rest =>
    match splitOnChar sep rest with
    | [] => [[]]
    | grp :: grps => if c = sep then [] :: grp :: grps else (c :: grp) :: grps

/-- Value of a nonempty all-decimal-digit character list. -/
def digitsToNat (cs : List Char) : ℕ :=
  cs.foldl (fun acc c => 10 * acc + (c.toNat - 48)) 0

/-- Parse a nonempty decimal digit string; `none` models `ValueError`. -/
def parseNatDigits (cs : List Char) : Option ℕ :=
  if cs ≠ [] ∧ cs.all Char.isDigit then some (digitsToNat cs) else none

/-- Python `int(str)` restricted to an optional sign followed by decimal
digits; `none` models `ValueError`. -/
def pyInt : List Char → Option ℤ
  | '-' :: rest => (parseNatDigits rest).map (fun n => -(n : ℤ))
  | '+' :: rest => (parseNatDigits rest).map (fun n => (n : ℤ))
  | cs => (parseNatDigits cs).map (fun n => (n : ℤ))

/-- `time_to_seconds` (src/main.py lines 9-15): split on `":"`, convert each
component with `int`, require exactly three components, return
`h*3600 + m*60 + s`.  `none` models the raised
`ValueError("Invalid time format. Use hh:mm:ss.")`. -/
def time_to_seconds (timeStr : List Char) : Option ℤ :=
  match (splitOnChar ':' timeStr).map pyInt with
  | [some h, some m, some s] => some (h * 3600 + m * 60 + s)
  | _ => none

/-- An observable I/O action of `parse_m3u8`. -/
inductive Ev where
  | get (url : String)
  | writeFile (path : String) (content : List String)
deriving DecidableEq

/-- How a `parse_m3u8` call ends. -/
inductive Outcome where
  | ok
  | fetchFailed                -- RequestException: message printed, early return
  | raised (msg : String)      -- a ValueError propagates to the caller
deriving DecidableEq

/-- `parse_m3u8` (src/main.py lines 18-37) as a trace semantics: the ordered
I/O events performed and the outcome.  The source performs the network GET
first (lines 21-25), then parses both time strings (lines 30-31), then checks
the range (lines 33-34), and only then filters and writes the output file
(lines 36-37). -/
def parse_m3u8 (net : Option (List MLine)) (url baseUrl : String)
    (startTime endTime : List Char) (outputFile : String) : List Ev × Outcome :=
  match net with
  | none => ([Ev.get url], Outcome.fetchFailed)
  | some lines =>
    match time_to_seconds startTime with
    | none => ([Ev.get url], Outcome.raised "Invalid time format. Use hh:mm:ss.")
    | some ss =>
      match time_to_seconds endTime with
      | none => ([Ev.get url], Outcome.raised "Invalid time format. Use hh:mm:ss.")
      | some es =>
        if es ≤ ss then
          ([Ev.get url], Outcome.raised "Start time must be before end time.")
        else
          ([Ev.get url,
            Ev.writeFile outputFile
              (write_output (filter_segments lines (ss : ℚ) (es : ℚ)) baseUrl)],
           Outcome.ok)

/-! ### Specification-side measuring functions

These definitions give the vocabulary in which the claims about
`filter_segments` are stated: the cumulative duration of the duration
annotations in a stretch of the scan, and the boundary predicates derived
from it. -/

/-- Sum of the durations of the duration-annotation lines in a stretch of the
enumerated scan (the amount `total_time` grows while crossing it). -/
def extSumP : List (ℕ × MLine) → ℚ
  | [] => 0
  | (_, l) :: rest => (if l.isExtinf then l.dur else 0) + extSumP rest

/-- `belowPB b t xs = true` iff scanning `xs` with running cumulative time
starting at `t`, every duration-annotation line is reached with cumulative
time strictly below `b`.  With `b = end_seconds` this says the scan never
breaks inside `xs`; with `b = start_seconds` it says no segment of `xs`
starts at or after the start boundary. -/
def belowPB (b : ℚ) : ℚ → List (ℕ × MLine) → Bool
  | _, [] => true
  | t, (_, l) :: rest =>
    if l.isExtinf then decide (t < b) && belowPB b (t + l.dur) rest
    else belowPB b t rest

/-- Position of the first duration-annotation line whose cumulative start time
(the running total before adding its own duration) reaches or exceeds `s`. -/
def firstQualAux : List (ℕ × MLine) → ℚ → ℚ → Option ℕ
  | [], _, _ => none
  | (i, l) :: rest, s, t =>
    if l.isExtinf then (if s ≤ t then some i else firstQualAux rest s (t + l.dur))
    else firstQualAux rest s t

/-- First segment position whose cumulative start reaches or exceeds `s`. -/
def firstQualifying (lines : List MLine) (s : ℚ) : Option ℕ :=
  firstQualAux lines.enum s 0

/-- Position of the first duration-annotation line kept by a
`filter_segments` run. -/
def firstKeptSeg (lines : List MLine) (s e : ℚ) : Option ℕ :=
  (((keptPairs lines s e).filter (fun x => x.2.isExtinf)).head?).map Prod.fst

/-- Total cumulative duration of a playlist. -/
def totalDuration (lines : List MLine) : ℚ := extSumP lines.enum

/-- A segment line: a duration annotation or a segment reference. -/
def segLine (l : MLine) : Bool := l.isExtinf || l.endsTs

/-! ### Concrete fixtures -/

/-- A well-formed duration-annotation line of duration `d`. -/
def extinfLine (d : ℚ) : MLine := ⟨true, d, false, "#EXTINF:10,"⟩

/-- A segment-reference line named `n`. -/
def tsLine (n : String) : MLine := ⟨false, 0, true, n⟩

/-- A header line. -/
def hdrLine : MLine := ⟨false, 0, false, "#EXTM3U"⟩

/-- The spec's scenario playlist: four segments of duration 10. -/
def c4lines : List MLine :=
  [extinfLine 10, tsLine "seg1.ts", extinfLine 10, tsLine "seg2.ts",
   extinfLine 10, tsLine "seg3.ts", extinfLine 10, tsLine "seg4.ts"]

/-- Two segments of duration 5: the second starts at 5. -/
def c2lines : List MLine :=
  [extinfLine 5, tsLine "a.ts", extinfLine 5, tsLine "b.ts"]


/-! ### Unfolding lemmas for the scan -/

theorem filterGo_nil (s e t : ℚ) (ins add : Bool) : filterGo [] s e t ins add = [] := rfl

theorem filterGo_cons_extinf {l : MLine} (hl : l.isExtinf = true) (i : ℕ)
    (rest : List (ℕ × MLine)) (s e t : ℚ) (ins add : Bool) :
    filterGo ((i, l) :: rest) s e t ins add =
      if e ≤ t then []
      else
        (if latch s t ins then [(i, l)] else []) ++
        (if latch s t ins && l.endsTs then [(i, l)] else []) ++
        filterGo rest s e (t + l.dur) (latch s t ins) false := by
  simp [filterGo, hl]

theorem filterGo_cons_other {l : MLine} (hl : l.isExtinf = false) (i : ℕ)
    (rest : List (ℕ × MLine)) (s e t : ℚ) (ins add : Bool) :
    filterGo ((i, l) :: rest) s e t ins add =
      (if add then [(i, l)] else []) ++
      (if ins && l.endsTs then [(i, l)] else []) ++
      filterGo rest s e t ins add := by
  simp [filterGo, hl]

/-! ### Cumulative-duration bookkeeping -/

theorem extSumP_nil : extSumP [] = 0 := rfl

theorem extSumP_cons (i : ℕ) (l : MLine) (rest : List (ℕ × MLine)) :
    extSumP ((i, l) :: rest) = (if l.isExtinf then l.dur else 0) + extSumP rest := rfl

theorem extSumP_append (X Y : List (ℕ × MLine)) :
    extSumP (X ++ Y) = extSumP X + extSumP Y := by
  induction X with
  | nil => simp [extSumP]
  | cons x X ih =>
    obtain ⟨i, l⟩ := x
    simp only [List.cons_append, extSumP_cons, ih]
    ring

theorem extSumP_nonneg {X : List (ℕ × MLine)}
    (h : ∀ x ∈ X, x.2.isExtinf = true → 0 ≤ x.2.dur) : 0 ≤ extSumP X := by
  induction X with
  | nil => simp [extSumP]
  | cons x X ih =>
    obtain ⟨i, l⟩ := x
    have h1 : 0 ≤ (if l.isExtinf then l.dur else 0) := by
      by_cases hl : l.isExtinf
      · simpa [hl] using h (i, l) (by simp) hl
      · simp [hl]
    have h2 : 0 ≤ extSumP X := ih fun y hy => h y (by simp [hy])
    rw [extSumP_cons]
    linarith

theorem belowPB_nil (b t : ℚ) : belowPB b t [] = true := rfl

theorem belowPB_cons (b t : ℚ) (i : ℕ) (l : MLine) (rest : List (ℕ × MLine)) :
    belowPB b t ((i, l) :: rest) =
      if l.isExtinf then decide (t < b) && belowPB b (t + l.dur) rest
      else belowPB b t rest := rfl

theorem belowPB_cons_extinf {l : MLine} (hl : l.isExtinf = true) (b t : ℚ) (i : ℕ)
    (rest : List (ℕ × MLine)) :
    belowPB b t ((i, l) :: rest) = (decide (t < b) && belowPB b (t + l.dur) rest) := by
  simp [belowPB, hl]

theorem belowPB_cons_other {l : MLine} (hl : l.isExtinf = false) (b t : ℚ) (i : ℕ)
    (rest : List (ℕ × MLine)) :
    belowPB b t ((i, l) :: rest) = belowPB b t rest := by
  simp [belowPB, hl]

theorem extSumP_cons_extinf {l : MLine} (hl : l.isExtinf = true) (i : ℕ)
    (rest : List (ℕ × MLine)) : extSumP ((i, l) :: rest) = l.dur + extSumP rest := by
  simp [extSumP_cons, hl]

theorem extSumP_cons_other {l : MLine} (hl : l.isExtinf = false) (i : ℕ)
    (rest : List (ℕ × MLine)) : extSumP ((i, l) :: rest) = extSumP rest := by
  simp [extSumP_cons, hl]

theorem belowPB_append (b t : ℚ) (X Y : List (ℕ × MLine)) :
    belowPB b t (X ++ Y) = (belowPB b t X && belowPB b (t + extSumP X) Y) := by
  induction X generalizing t with
  | nil => simp [belowPB, extSumP]
  | cons x X ih =>
    obtain ⟨i, l⟩ := x
    cases hl : l.isExtinf
    · simp only [List.cons_append, belowPB_cons_other hl, ih, extSumP_cons_other hl]
    · simp only [List.cons_append, belowPB_cons_extinf hl, ih, extSumP_cons_extinf hl,
        Bool.and_assoc]
      rw [show t + (l.dur + extSumP X) = t + l.dur + extSumP X by ring]

theorem belowPB_of_append {b t : ℚ} {X Y : List (ℕ × MLine)}
    (h : belowPB b t (X ++ Y) = true) : belowPB b t X = true := by
  rw [belowPB_append] at h
  exact (Bool.and_eq_true_iff.mp h).1

theorem belowPB_append_false {b t : ℚ} {X : List (ℕ × MLine)} (Y : List (ℕ × MLine))
    (h : belowPB b t X = false) : belowPB b t (X ++ Y) = false := by
  rw [belowPB_append, h, Bool.false_and]

theorem belowPB_mono {b b' : ℚ} (hbb : b ≤ b') {t : ℚ} {X : List (ℕ × MLine)}
    (h : belowPB b t X = true) : belowPB b' t X = true := by
  induction X generalizing t with
  | nil => rfl
  | cons x X ih =>
    obtain ⟨i, l⟩ := x
    by_cases hl : l.isExtinf
    · simp only [belowPB_cons, hl, if_true, Bool.and_eq_true, decide_eq_true_eq] at h ⊢
      exact ⟨lt_of_lt_of_le h.1 hbb, ih h.2⟩
    · simp only [belowPB_cons, hl, if_false] at h ⊢
      exact ih h

/-! ### Structure of the scan: membership, append, break -/

theorem mem_ite_singleton_iff {α : Type _} {c : Prop} [Decidable c] {x y : α} :
    (x ∈ if c then [y] else []) ↔ c ∧ x = y := by
  by_cases hc : c <;> simp [hc]

theorem filterGo_break {l : MLine} (hl : l.isExtinf = true) {e t : ℚ} (hbr : e ≤ t)
    (i : ℕ) (rest : List (ℕ × MLine)) (s : ℚ) (ins add : Bool) :
    filterGo ((i, l) :: rest) s e t ins add = [] := by
  rw [filterGo_cons_extinf hl, if_pos hbr]

theorem mem_of_mem_filterGo {xs : List (ℕ × MLine)} {s e t : ℚ} {ins add : Bool}
    {x : ℕ × MLine} (h : x ∈ filterGo xs s e t ins add) : x ∈ xs := by
  induction xs generalizing t ins add with
  | nil => simp [filterGo_nil] at h
  | cons y ys ih =>
    obtain ⟨i, l⟩ := y
    cases hl : l.isExtinf
    · rw [filterGo_cons_other hl] at h
      rcases List.mem_append.mp h with h' | h'
      · rcases List.mem_append.mp h' with h'' | h''
        · rw [(mem_ite_singleton_iff.mp h'').2]
          exact List.mem_cons_self _ _
        · rw [(mem_ite_singleton_iff.mp h'').2]
          exact List.mem_cons_self _ _
      · exact List.mem_cons_of_mem _ (ih h')
    · rw [filterGo_cons_extinf hl] at h
      by_cases hbr : e ≤ t
      · rw [if_pos hbr] at h
        simp at h
      · rw [if_neg hbr] at h
        rcases List.mem_append.mp h with h' | h'
        · rcases List.mem_append.mp h' with h'' | h''
          · rw [(mem_ite_singleton_iff.mp h'').2]
            exact List.mem_cons_self _ _
          · rw [(mem_ite_singleton_iff.mp h'').2]
            exact List.mem_cons_self _ _
        · exact List.mem_cons_of_mem _ (ih h')

theorem filterGo_append_of_below {e : ℚ} {X : List (ℕ × MLine)} (s t : ℚ) (ins add : Bool)
    (Y : List (ℕ × MLine)) (h : belowPB e t X = true) :
    ∃ ins' add', filterGo (X ++ Y) s e t ins add =
      filterGo X s e t ins add ++ filterGo Y s e (t + extSumP X) ins' add' := by
  induction X generalizing t ins add with
  | nil => exact ⟨ins, add, by simp [filterGo_nil, extSumP_nil]⟩
  | cons x X ih =>
    obtain ⟨i, l⟩ := x
    cases hl : l.isExtinf
    · obtain ⟨ins', add', hrec⟩ := ih t ins add (by rwa [belowPB_cons_other hl] at h)
      refine ⟨ins', add', ?_⟩
      rw [List.cons_append, filterGo_cons_other hl, filterGo_cons_other hl, hrec,
        extSumP_cons_other hl]
      simp [List.append_assoc]
    · rw [belowPB_cons_extinf hl] at h
      obtain ⟨hlt, hbel⟩ := Bool.and_eq_true_iff.mp h
      have hlt' : t < e := of_decide_eq_true hlt
      obtain ⟨ins', add', hrec⟩ := ih (t + l.dur) (latch s t ins) false hbel
      refine ⟨ins', add', ?_⟩
      rw [List.cons_append, filterGo_cons_extinf hl, filterGo_cons_extinf hl,
        if_neg (not_le.mpr hlt'), if_neg (not_le.mpr hlt'), hrec, extSumP_cons_extinf hl,
        show t + (l.dur + extSumP X) = t + l.dur + extSumP X from (add_assoc t _ _).symm]
      simp [List.append_assoc]

/-! ### Scan characterisation: a duration-annotation line is kept exactly when
the scan has not broken up to and including it and the inside-range latch has
fired at or before it -/

theorem mem_filterGo_of_conditions {lines : List MLine} {n : ℕ} {s e t : ℚ}
    {ins add : Bool} {A : List (ℕ × MLine)} {p : ℕ} {l : MLine} {B : List (ℕ × MLine)}
    (heq : lines.enumFrom n = A ++ (p, l) :: B)
    (hl : l.isExtinf = true)
    (hbel : belowPB e t (A ++ [(p, l)]) = true)
    (hins : ins = true ∨ belowPB s t (A ++ [(p, l)]) = false) :
    (p, l) ∈ filterGo (lines.enumFrom n) s e t ins add := by
  induction lines generalizing n t ins add A B with
  | nil => simp [List.enumFrom] at heq
  | cons l₀ rest ih =>
    rw [List.enumFrom_cons] at heq ⊢
    cases A with
    | nil =>
      simp only [List.nil_append] at heq hbel hins
      have hpn : (p, l) = (n, l₀) := (List.cons_eq_cons.mp heq).1.symm
      have hp : p = n := congrArg Prod.fst hpn
      have hll : l = l₀ := congrArg Prod.snd hpn
      have hl₀ : l₀.isExtinf = true := hll ▸ hl
      rw [belowPB_cons_extinf hl, belowPB_nil, Bool.and_true] at hbel
      have hlt : t < e := of_decide_eq_true hbel
      have hlatch : latch s t ins = true := by
        rcases hins with hi | hi
        · rw [latch]
          by_cases hst : s ≤ t
          · rw [if_pos hst]
          · rw [if_neg hst]; exact hi
        · rw [belowPB_cons_extinf hl, belowPB_nil, Bool.and_true] at hi
          have hst : s ≤ t := not_lt.mp (of_decide_eq_false hi)
          rw [latch, if_pos hst]
      rw [filterGo_cons_extinf hl₀, if_neg (not_le.mpr hlt), hpn]
      apply List.mem_append_left
      apply List.mem_append_left
      rw [hlatch]
      simp
    | cons a A' =>
      rw [List.cons_append] at heq
      have ha : a = (n, l₀) := ((List.cons_eq_cons.mp heq).1).symm
      have heq' : rest.enumFrom (n + 1) = A' ++ (p, l) :: B := (List.cons_eq_cons.mp heq).2
      subst ha
      rw [List.cons_append] at hbel hins
      cases hl₀ : l₀.isExtinf
      · rw [belowPB_cons_other hl₀] at hbel
        have hins' : ins = true ∨ belowPB s t (A' ++ [(p, l)]) = false := by
          rcases hins with hi | hi
          · exact Or.inl hi
          · rw [belowPB_cons_other hl₀] at hi
            exact Or.inr hi
        have hmem := @ih (n + 1) t ins add A' B heq' hbel hins'
        rw [filterGo_cons_other hl₀]
        exact List.mem_append_right _ hmem
      · rw [belowPB_cons_extinf hl₀] at hbel
        obtain ⟨hlt, hbel'⟩ := Bool.and_eq_true_iff.mp hbel
        have hlt' : t < e := of_decide_eq_true hlt
        have hins' : latch s t ins = true ∨
            belowPB s (t + l₀.dur) (A' ++ [(p, l)]) = false := by
          rcases hins with hi | hi
          · left
            rw [latch]
            by_cases hst : s ≤ t
            · rw [if_pos hst]
            · rw [if_neg hst]; exact hi
          · rw [belowPB_cons_extinf hl₀] at hi
            rcases Bool.and_eq_false_iff.mp hi with hi' | hi'
            · left
              have hst : s ≤ t := not_lt.mp (of_decide_eq_false hi')
              rw [latch, if_pos hst]
            · exact Or.inr hi'
        have hmem := @ih (n + 1) (t + l₀.dur) (latch s t ins) false A' B heq' hbel' hins'
        rw [filterGo_cons_extinf hl₀, if_neg (not_le.mpr hlt')]
        exact List.mem_append_right _ hmem

theorem conditions_of_mem_filterGo {lines : List MLine} {n : ℕ} {s e t : ℚ}
    {ins add : Bool} {p : ℕ} {l : MLine}
    (h : (p, l) ∈ filterGo (lines.enumFrom n) s e t ins add)
    (hl : l.isExtinf = true) :
    ∃ A B, lines.enumFrom n = A ++ (p, l) :: B ∧
      belowPB e t (A ++ [(p, l)]) = true ∧
      (ins = true ∨ belowPB s t (A ++ [(p, l)]) = false) := by
  induction lines generalizing n t ins add with
  | nil => simp [List.enumFrom, filterGo_nil] at h
  | cons l₀ rest ih =>
    rw [List.enumFrom_cons] at h ⊢
    cases hl₀ : l₀.isExtinf
    · rw [filterGo_cons_other hl₀] at h
      rcases List.mem_append.mp h with h' | h'
      · exfalso
        have hpl : (p, l) = (n, l₀) := by
          rcases List.mem_append.mp h' with h'' | h''
          · exact (mem_ite_singleton_iff.mp h'').2
          · exact (mem_ite_singleton_iff.mp h'').2
        have : l = l₀ := congrArg Prod.snd hpl
        rw [this, hl₀] at hl
        exact Bool.false_ne_true hl
      · obtain ⟨A', B', heq', hbel', hins'⟩ := ih h'
        refine ⟨(n, l₀) :: A', B', by rw [heq', List.cons_append], ?_, ?_⟩
        · rw [List.cons_append, belowPB_cons_other hl₀]
          exact hbel'
        · rcases hins' with hi | hi
          · exact Or.inl hi
          · right
            rw [List.cons_append, belowPB_cons_other hl₀]
            exact hi
    · rw [filterGo_cons_extinf hl₀] at h
      by_cases hbr : e ≤ t
      · rw [if_pos hbr] at h
        simp at h
      · rw [if_neg hbr] at h
        have hlt : t < e := not_le.mp hbr
        rcases List.mem_append.mp h with h' | h'
        · -- kept at the head: (p, l) = (n, l₀) and the latch fired here
          have hcond : latch s t ins = true ∧ (p, l) = (n, l₀) := by
            rcases List.mem_append.mp h' with h'' | h''
            · exact mem_ite_singleton_iff.mp h''
            · obtain ⟨hc, hx⟩ := mem_ite_singleton_iff.mp h''
              exact ⟨(Bool.and_eq_true_iff.mp hc).1, hx⟩
          obtain ⟨hlatch, hpl⟩ := hcond
          refine ⟨[], rest.enumFrom (n + 1), by rw [hpl, List.nil_append], ?_, ?_⟩
          · rw [List.nil_append, belowPB_cons_extinf hl, belowPB_nil, Bool.and_true]
            exact decide_eq_true hlt
          · by_cases hst : s ≤ t
            · right
              rw [List.nil_append, belowPB_cons_extinf hl, belowPB_nil, Bool.and_true]
              exact decide_eq_false (not_lt.mpr hst)
            · left
              rw [latch, if_neg hst] at hlatch
              exact hlatch
        · obtain ⟨A', B', heq', hbel', hins'⟩ := ih h'
          refine ⟨(n, l₀) :: A', B', by rw [heq', List.cons_append], ?_, ?_⟩
          · rw [List.cons_append, belowPB_cons_extinf hl₀, hbel', Bool.and_true]
            exact decide_eq_true hlt
          · rcases hins' with hi | hi
            · by_cases hst : s ≤ t
              · right
                rw [List.cons_append, belowPB_cons_extinf hl₀,
                  decide_eq_false (not_lt.mpr hst), Bool.false_and]
              · left
                rw [latch, if_neg hst] at hi
                exact hi
            · right
              rw [List.cons_append, belowPB_cons_extinf hl₀, hi, Bool.and_false]

/-! ### Splitting the enumerated playlist at a position -/

theorem enumFrom_split {lines : List MLine} {n : ℕ} {A B : List (ℕ × MLine)} {p : ℕ}
    {x : MLine} (h : lines.enumFrom n = A ++ (p, x) :: B) :
    ∃ pre post, lines = pre ++ x :: post ∧ A = pre.enumFrom n ∧
      p = n + pre.length ∧ B = post.enumFrom (p + 1) := by
  obtain ⟨l₁, l₂, hdecomp, hA, hB⟩ := List.enumFrom_eq_append_iff.mp h
  obtain ⟨a, as, hl₂, hx, hB'⟩ := List.enumFrom_eq_cons_iff.mp hB.symm
  have hxa : x = a := congrArg Prod.snd hx
  have hp : p = n + l₁.length := congrArg Prod.fst hx
  refine ⟨l₁, as, ?_, hA, hp, ?_⟩
  · rw [hdecomp, hl₂, hxa]
  · rw [hB', hp]

theorem enumFrom_concat (n : ℕ) (pre : List MLine) (x : MLine) :
    (pre ++ [x]).enumFrom n = pre.enumFrom n ++ [(n + pre.length, x)] := by
  rw [List.enumFrom_append, List.enumFrom_singleton]

theorem split_below_extend {lines : List MLine} {n : ℕ}
    {A₁ A₂ B₁ B₂ : List (ℕ × MLine)} {p₁ p₂ : ℕ} {x₁ x₂ : MLine}
    (h₁ : lines.enumFrom n = A₁ ++ (p₁, x₁) :: B₁)
    (h₂ : lines.enumFrom n = A₂ ++ (p₂, x₂) :: B₂)
    (hle : p₁ ≤ p₂) :
    ∃ Z, A₂ ++ [(p₂, x₂)] = (A₁ ++ [(p₁, x₁)]) ++ Z := by
  obtain ⟨pre₁, post₁, hl₁, hA₁, hp₁, hB₁⟩ := enumFrom_split h₁
  obtain ⟨pre₂, post₂, hl₂, hA₂, hp₂, hB₂⟩ := enumFrom_split h₂
  have hlen : pre₁.length + 1 ≤ pre₂.length + 1 := by omega
  have hll : (pre₁ ++ [x₁]) ++ post₁ = (pre₂ ++ [x₂]) ++ post₂ := by
    rw [List.append_assoc, List.append_assoc, List.singleton_append,
      List.singleton_append, ← hl₁, ← hl₂]
  have hlen₁ : (pre₁ ++ [x₁]).length = pre₁.length + 1 := by simp
  have htake₁ : ((pre₁ ++ [x₁]) ++ post₁).take (pre₁.length + 1) = pre₁ ++ [x₁] := by
    rw [List.take_append_of_le_length (le_of_eq hlen₁.symm), ← hlen₁, List.take_length]
  have htake₂ : ((pre₂ ++ [x₂]) ++ post₂).take (pre₁.length + 1) =
      (pre₂ ++ [x₂]).take (pre₁.length + 1) := by
    rw [List.take_append_of_le_length (by simpa using hlen)]
  have htake : pre₁ ++ [x₁] = (pre₂ ++ [x₂]).take (pre₁.length + 1) := by
    rw [← htake₁, hll, htake₂]
  have hsplit : pre₂ ++ [x₂] = (pre₁ ++ [x₁]) ++ (pre₂ ++ [x₂]).drop (pre₁.length + 1) := by
    rw [htake]
    exact (List.take_append_drop _ _).symm
  refine ⟨((pre₂ ++ [x₂]).drop (pre₁.length + 1)).enumFrom (n + (pre₁.length + 1)), ?_⟩
  have e₂ : A₂ ++ [(p₂, x₂)] = (pre₂ ++ [x₂]).enumFrom n := by
    rw [enumFrom_concat, hA₂, hp₂]
  have e₁ : A₁ ++ [(p₁, x₁)] = (pre₁ ++ [x₁]).enumFrom n := by
    rw [enumFrom_concat, hA₁, hp₁]
  rw [e₂, e₁]
  conv_lhs => rw [hsplit]
  rw [List.enumFrom_append, hlen₁]

theorem enum_eq_enumFrom (lines : List MLine) : lines.enum = lines.enumFrom 0 := rfl

theorem split_below_extend_strict {lines : List MLine} {n : ℕ}
    {A₁ A₂ B₁ B₂ : List (ℕ × MLine)} {p₁ p₂ : ℕ} {x₁ x₂ : MLine}
    (h₁ : lines.enumFrom n = A₁ ++ (p₁, x₁) :: B₁)
    (h₂ : lines.enumFrom n = A₂ ++ (p₂, x₂) :: B₂)
    (hlt : p₁ < p₂) :
    ∃ Z, A₂ = (A₁ ++ [(p₁, x₁)]) ++ Z := by
  obtain ⟨pre₁, post₁, hl₁, hA₁, hp₁, hB₁⟩ := enumFrom_split h₁
  obtain ⟨pre₂, post₂, hl₂, hA₂, hp₂, hB₂⟩ := enumFrom_split h₂
  have hlen : pre₁.length + 1 ≤ pre₂.length := by omega
  have hll : (pre₁ ++ [x₁]) ++ post₁ = pre₂ ++ x₂ :: post₂ := by
    rw [List.append_assoc, List.singleton_append, ← hl₁, ← hl₂]
  have hlen₁ : (pre₁ ++ [x₁]).length = pre₁.length + 1 := by simp
  have htake₁ : ((pre₁ ++ [x₁]) ++ post₁).take (pre₁.length + 1) = pre₁ ++ [x₁] := by
    rw [List.take_append_of_le_length (le_of_eq hlen₁.symm), ← hlen₁, List.take_length]
  have htake₂ : (pre₂ ++ x₂ :: post₂).take (pre₁.length + 1) =
      pre₂.take (pre₁.length + 1) := List.take_append_of_le_length hlen
  have htake : pre₁ ++ [x₁] = pre₂.take (pre₁.length + 1) := by
    rw [← htake₁, hll, htake₂]
  have hsplit : pre₂ = (pre₁ ++ [x₁]) ++ pre₂.drop (pre₁.length + 1) := by
    rw [htake]
    exact (List.take_append_drop _ _).symm
  refine ⟨(pre₂.drop (pre₁.length + 1)).enumFrom (n + (pre₁.length + 1)), ?_⟩
  have e₁ : A₁ ++ [(p₁, x₁)] = (pre₁ ++ [x₁]).enumFrom n := by
    rw [enumFrom_concat, hA₁, hp₁]
  rw [hA₂, e₁]
  conv_lhs => rw [hsplit]
  rw [List.enumFrom_append, hlen₁]

theorem firstQualAux_nil (s t : ℚ) : firstQualAux [] s t = none := rfl

theorem firstQualAux_cons_extinf {l : MLine} (hl : l.isExtinf = true) (i : ℕ)
    (rest : List (ℕ × MLine)) (s t : ℚ) :
    firstQualAux ((i, l) :: rest) s t =
      if s ≤ t then some i else firstQualAux rest s (t + l.dur) := by
  simp [firstQualAux, hl]

theorem firstQualAux_cons_other {l : MLine} (hl : l.isExtinf = false) (i : ℕ)
    (rest : List (ℕ × MLine)) (s t : ℚ) :
    firstQualAux ((i, l) :: rest) s t = firstQualAux rest s t := by
  simp [firstQualAux, hl]

theorem firstQualAux_append {A : List (ℕ × MLine)} {s t : ℚ}
    (hquiet : belowPB s t A = true) {p : ℕ} {l : MLine} (hl : l.isExtinf = true)
    (hqual : s ≤ t + extSumP A) (B : List (ℕ × MLine)) :
    firstQualAux (A ++ (p, l) :: B) s t = some p := by
  induction A generalizing t with
  | nil =>
    rw [extSumP_nil, add_zero] at hqual
    rw [List.nil_append, firstQualAux_cons_extinf hl, if_pos hqual]
  | cons a A ih =>
    obtain ⟨i, m⟩ := a
    cases hm : m.isExtinf
    · rw [List.cons_append, firstQualAux_cons_other hm]
      rw [belowPB_cons_other hm] at hquiet
      rw [extSumP_cons_other hm] at hqual
      exact ih hquiet hqual
    · rw [List.cons_append, firstQualAux_cons_extinf hm]
      rw [belowPB_cons_extinf hm] at hquiet
      obtain ⟨hts, hquiet'⟩ := Bool.and_eq_true_iff.mp hquiet
      have hts' : t < s := of_decide_eq_true hts
      rw [if_neg (not_le.mpr hts')]
      rw [extSumP_cons_extinf hm, ← add_assoc] at hqual
      exact ih hquiet' hqual

/-! ### Claim theorems -/

/-- Claim C10: `time_to_seconds` accepts negative components: on `"00:00:-5"`
it returns the arithmetic value `0*3600 + 0*60 + (-5) = -5` instead of
raising a format error. -/
theorem time_to_seconds_accepts_negative :
    time_to_seconds "00:00:-5".toList = some (-5) := by decide

/-- Claim C5: for every string splitting on `":"` into exactly three
integer-parseable components `h`, `m`, `s`, `time_to_seconds` returns
`h*3600 + m*60 + s`; for every other string it fails with the format
error (modelled as `none`). -/
theorem time_to_seconds_spec :
    (∀ (cs : List Char) (h m s : ℤ),
      (splitOnChar ':' cs).map pyInt = [some h, some m, some s] →
      time_to_seconds cs = some (h * 3600 + m * 60 + s)) ∧
    (∀ cs : List Char,
      (¬ ∃ h m s : ℤ, (splitOnChar ':' cs).map pyInt = [some h, some m, some s]) →
      time_to_seconds cs = none) := by
  constructor
  · intro cs h m s hsplit
    unfold time_to_seconds
    rw [hsplit]
  · intro cs hne
    unfold time_to_seconds
    split
    · next h m s heq => exact absurd ⟨h, m, s, heq⟩ hne
    · rfl

/-- Witness for C5: `"01:02:03"` parses to 3723 seconds, `"1:2"` fails. -/
theorem time_to_seconds_spec_witness :
    time_to_seconds "01:02:03".toList = some 3723 ∧
    time_to_seconds "1:2".toList = none := by
  constructor
  · have h := time_to_seconds_spec.1 "01:02:03".toList 1 2 3 (by decide)
    rw [h]
    decide
  · apply time_to_seconds_spec.2
    rintro ⟨h, m, s, heq⟩
    rw [show (splitOnChar ':' "1:2".toList).map pyInt = [some 1, some 2] from by decide]
      at heq
    simp at heq

/-- Claim C4: for the playlist with four segments of duration 10 (cumulative
starts 0, 10, 20, 30) and the window [15, 25), `filter_segments` keeps exactly
the third segment's duration-annotation line and its reference line. -/
theorem filter_segments_window_15_25 :
    filter_segments c4lines 15 25 = [extinfLine 10, tsLine "seg3.ts"] := by
  norm_num [filter_segments, keptPairs, filterGo, latch, c4lines, extinfLine, tsLine,
    List.enum, List.enumFrom]

/-- Claim C7: `write_output` writes each `.ts`-suffixed line as
`base_url ++ "/" ++ line`, every other line verbatim, preserves order, and
appends exactly one `#EXT-X-ENDLIST` line after all content; a rewritten
segment-reference line is never the bare relative reference. -/
theorem write_output_spec (lines : List MLine) (baseUrl : String) :
    write_output lines baseUrl =
      (lines.map fun l => if l.endsTs then baseUrl ++ "/" ++ l.raw else l.raw) ++
        ["#EXT-X-ENDLIST"] ∧
    ∀ l ∈ lines, l.endsTs = true → baseUrl ++ "/" ++ l.raw ≠ l.raw := by
  constructor
  · induction lines with
    | nil => rfl
    | cons l rest ih =>
      rw [write_output, ih, List.map_cons, List.cons_append]
  · intro l _ _ hcontra
    have hlen : (baseUrl ++ "/" ++ l.raw).length = l.raw.length :=
      congrArg String.length hcontra
    rw [String.length_append, String.length_append] at hlen
    have h1 : ("/" : String).length = 1 := rfl
    omega

/-- Witness for C7 at a concrete playlist and base URL. -/
theorem write_output_spec_witness :
    write_output [tsLine "a.ts", hdrLine] "http://h" =
      ["http://h/a.ts", "#EXTM3U", "#EXT-X-ENDLIST"] ∧
    "http://h" ++ "/" ++ "a.ts" ≠ "a.ts" := by
  obtain ⟨h1, h2⟩ := write_output_spec [tsLine "a.ts", hdrLine] "http://h"
  constructor
  · rw [h1]
    rfl
  · exact h2 (tsLine "a.ts") (by simp) rfl

/-- Claim C1 (counterexample): with a reachable network (`net = some []`) and
`start = 00:00:10 ≥ end = 00:00:05`, `parse_m3u8` raises the range error, yet
the network GET event is in its trace — the GET is performed before the time
strings are even parsed (src/main.py performs `requests.get` at line 21,
`time_to_seconds` only at lines 30-31).  This refutes the claim that the
range/format error is raised before the network GET. -/
theorem parse_m3u8_get_precedes_range_error :
    time_to_seconds "00:00:10".toList = some 10 ∧
    time_to_seconds "00:00:05".toList = some 5 ∧
    parse_m3u8 (some []) "http://e/x.m3u8" "http://e" "00:00:10".toList
        "00:00:05".toList "out.m3u8" =
      ([Ev.get "http://e/x.m3u8"], Outcome.raised "Start time must be before end time.") ∧
    Ev.get "http://e/x.m3u8" ∈
      (parse_m3u8 (some []) "http://e/x.m3u8" "http://e" "00:00:10".toList
        "00:00:05".toList "out.m3u8").1 := by
  refine ⟨by decide, by decide, by decide, by decide⟩

/-- Claim C1 (amended): if the time strings are malformed, or parse to
`start_seconds ≥ end_seconds`, then `parse_m3u8` raises the error after the
network GET but before any output-file write: its trace is exactly the GET
event, and its outcome is a raised error. -/
theorem parse_m3u8_invalid_raises_before_write (net : List MLine)
    (url baseUrl : String) (startT endT : List Char) (out : String)
    (hbad : ∀ ss es, time_to_seconds startT = some ss →
      time_to_seconds endT = some es → es ≤ ss) :
    ∃ msg, parse_m3u8 (some net) url baseUrl startT endT out =
      ([Ev.get url], Outcome.raised msg) := by
  cases hs : time_to_seconds startT with
  | none =>
    refine ⟨"Invalid time format. Use hh:mm:ss.", ?_⟩
    simp only [parse_m3u8, hs]
  | some ss =>
    cases he : time_to_seconds endT with
    | none =>
      refine ⟨"Invalid time format. Use hh:mm:ss.", ?_⟩
      simp only [parse_m3u8, hs, he]
    | some es =>
      refine ⟨"Start time must be before end time.", ?_⟩
      simp only [parse_m3u8, hs, he, if_pos (hbad ss es hs he)]

/-- Witness for the amended C1 at the concrete counterexample input. -/
theorem parse_m3u8_invalid_raises_before_write_witness :
    ∃ msg, parse_m3u8 (some []) "http://e/x.m3u8" "http://e" "00:00:10".toList
      "00:00:05".toList "out.m3u8" = ([Ev.get "http://e/x.m3u8"], Outcome.raised msg) :=
  parse_m3u8_invalid_raises_before_write [] "http://e/x.m3u8" "http://e"
    "00:00:10".toList "00:00:05".toList "out.m3u8"
    (fun ss es hss hes => by
      rw [show time_to_seconds "00:00:10".toList = some 10 from by decide] at hss
      rw [show time_to_seconds "00:00:05".toList = some 5 from by decide] at hes
      rw [(Option.some.injEq _ _).mp hss.symm, (Option.some.injEq _ _).mp hes.symm]
      decide)

/-- Claim C2 (counterexample): with two segments of duration 5 (cumulative
starts 0 and 5) and the window [4, 5), the first segment whose cumulative
start reaches `start_seconds = 4` is the one at position 2 (start 5), yet
`filter_segments` keeps no segment at all: that segment's start also reaches
`end_seconds = 5`, so the scan breaks at it before appending.  Hence the
first kept segment is not always the first segment whose start reaches
`start_seconds`. -/
theorem first_kept_ne_first_qualifying :
    firstQualifying c2lines 4 = some 2 ∧ firstKeptSeg c2lines 4 5 = none := by
  constructor
  · norm_num [firstQualifying, firstQualAux, c2lines, extinfLine, tsLine, List.enum,
      List.enumFrom]
  · norm_num [firstKeptSeg, keptPairs, filterGo, latch, c2lines, extinfLine, tsLine,
      List.enum, List.enumFrom]

/-- Claim C2 (amended): the start-boundary check `total_time >= start_seconds`
is evaluated before the segment's own duration is added, so whenever the first
duration-annotation line whose cumulative start reaches or exceeds
`start_seconds` (position `p`, every earlier segment starting strictly below
`start_seconds`) also starts strictly below `end_seconds`, that segment is
kept, it is the first qualifying segment, and every kept duration-annotation
line sits at position `p` or later: inclusion is decided on segment-start
time, never on segment-end time. -/
theorem first_qualifying_is_first_kept (lines : List MLine) (s e : ℚ)
    (A B : List (ℕ × MLine)) (p : ℕ) (l : MLine)
    (hsplit : lines.enum = A ++ (p, l) :: B)
    (hl : l.isExtinf = true)
    (hquiet : belowPB s 0 A = true)
    (hqual : s ≤ extSumP A)
    (hend : extSumP A < e) :
    firstQualifying lines s = some p ∧
    (p, l) ∈ keptPairs lines s e ∧
    ∀ q m, (q, m) ∈ keptPairs lines s e → m.isExtinf = true → p ≤ q := by
  have hse : s < e := lt_of_le_of_lt hqual hend
  have hsplit0 : lines.enumFrom 0 = A ++ (p, l) :: B := by
    rw [← enum_eq_enumFrom, hsplit]
  refine ⟨?_, ?_, ?_⟩
  · rw [firstQualifying, hsplit]
    exact firstQualAux_append hquiet hl (by rwa [zero_add]) B
  · apply mem_filterGo_of_conditions hsplit0 hl
    · rw [belowPB_append, belowPB_cons_extinf hl, belowPB_nil, Bool.and_true, zero_add]
      rw [belowPB_mono (le_of_lt hse) hquiet, decide_eq_true hend, Bool.true_and]
    · right
      rw [belowPB_append, belowPB_cons_extinf hl, belowPB_nil, Bool.and_true, zero_add,
        decide_eq_false (not_lt.mpr hqual), Bool.and_false]
  · intro q m hmem hm
    by_contra hqp
    have hlt : q < p := lt_of_not_le fun h => hqp h
    obtain ⟨Aq, Bq, heqq, _, hinsq⟩ := conditions_of_mem_filterGo hmem hm
    have hqf : belowPB s 0 (Aq ++ [(q, m)]) = false := by
      rcases hinsq with hfalse | hf
      · exact absurd hfalse (by simp)
      · exact hf
    obtain ⟨Z, hZ⟩ := split_below_extend_strict heqq hsplit0 hlt
    rw [hZ, belowPB_append_false Z hqf] at hquiet
    exact Bool.false_ne_true hquiet

/-- Witness for the amended C2: playlist `[header, segment(1), ref]`,
window [0, 1): the single segment (cumulative start 0) qualifies and is the
first kept. -/
theorem first_qualifying_is_first_kept_witness :
    firstQualifying [hdrLine, extinfLine 1, tsLine "a.ts"] 0 = some 1 ∧
    (1, extinfLine 1) ∈ keptPairs [hdrLine, extinfLine 1, tsLine "a.ts"] 0 1 ∧
    ∀ q m, (q, m) ∈ keptPairs [hdrLine, extinfLine 1, tsLine "a.ts"] 0 1 →
      m.isExtinf = true → 1 ≤ q :=
  first_qualifying_is_first_kept [hdrLine, extinfLine 1, tsLine "a.ts"] 0 1
    [(0, hdrLine)] [(2, tsLine "a.ts")] 1 (extinfLine 1) rfl rfl rfl
    (by simp [extSumP_cons, extSumP_nil, hdrLine])
    (by simp [extSumP_cons, extSumP_nil, hdrLine])

/-- Claim C3: at the first duration-annotation line reached with cumulative
time `total_time ≥ end_seconds` (prefix `P` scanned without breaking,
`e ≤ extSumP P.enum` at the line), the scan stops entirely: the result on the
full playlist equals the result on the prefix `P` alone — the triggering
duration line is not appended and no later line contributes. -/
theorem filter_segments_stops_at_end_boundary (P R : List MLine) (l : MLine) (s e : ℚ)
    (hl : l.isExtinf = true)
    (hnb : belowPB e 0 P.enum = true)
    (hge : e ≤ extSumP P.enum) :
    filter_segments (P ++ l :: R) s e = filter_segments P s e := by
  rw [filter_segments, filter_segments, keptPairs, keptPairs, List.enum_append,
    List.enumFrom_cons]
  obtain ⟨ins', add', hap⟩ :=
    filterGo_append_of_below s 0 false true ((P.length, l) :: R.enumFrom (P.length + 1)) hnb
  rw [hap, filterGo_break hl (by rwa [zero_add]) _ _ _ _ _, List.append_nil]

/-- Witness for C3: prefix of one 1-second segment, window [0, 1): the scan
breaks at the second duration line and the output equals the prefix output. -/
theorem filter_segments_stops_at_end_boundary_witness :
    filter_segments [extinfLine 1, tsLine "a.ts", extinfLine 1, tsLine "b.ts"] 0 1 =
      filter_segments [extinfLine 1, tsLine "a.ts"] 0 1 :=
  filter_segments_stops_at_end_boundary [extinfLine 1, tsLine "a.ts"] [tsLine "b.ts"]
    (extinfLine 1) 0 1 rfl
    (by simp [List.enum, List.enumFrom, belowPB, extinfLine, tsLine])
    (by simp [List.enum, List.enumFrom, extSumP, extinfLine, tsLine])

theorem filterGo_header_run (Z C : List (ℕ × MLine)) (s e t : ℚ)
    (h : ∀ x ∈ Z, x.2.isExtinf = false) :
    filterGo (Z ++ C) s e t false true = Z ++ filterGo C s e t false true := by
  induction Z with
  | nil => simp
  | cons z Z ih =>
    obtain ⟨i, l⟩ := z
    have hl : l.isExtinf = false := h (i, l) (List.mem_cons_self _ _)
    rw [List.cons_append, filterGo_cons_other hl]
    simp only [if_pos rfl, Bool.false_and, if_neg (Bool.false_ne_true), List.nil_append]
    rw [ih fun x hx => h x (List.mem_cons_of_mem _ hx)]
    rfl

/-- Claim C6: every line preceding the first duration-annotation line is kept
unconditionally, whatever the window: the filtered output starts with the
whole non-`#EXTINF` prefix of the playlist. -/
theorem filter_segments_keeps_header (pre rest : List MLine) (s e : ℚ)
    (h : ∀ l ∈ pre, l.isExtinf = false) :
    ∃ tail, filter_segments (pre ++ rest) s e = pre ++ tail := by
  refine ⟨(filterGo (rest.enumFrom pre.length) s e 0 false true).map Prod.snd, ?_⟩
  rw [filter_segments, keptPairs, List.enum_append,
    filterGo_header_run _ _ _ _ _ fun x hx => h x.2 (List.snd_mem_of_mem_enum hx),
    List.map_append, List.enum_map_snd]

/-- Witness for C6: a header line survives filtering with window [0, 1). -/
theorem filter_segments_keeps_header_witness :
    ∃ tail, filter_segments ([hdrLine] ++ [extinfLine 1, tsLine "a.ts"]) 0 1 =
      [hdrLine] ++ tail :=
  filter_segments_keeps_header [hdrLine] [extinfLine 1, tsLine "a.ts"] 0 1
    (by simp [hdrLine])

theorem write_output_eq (lines : List MLine) (baseUrl : String) :
    write_output lines baseUrl =
      (lines.map fun l => if l.endsTs then baseUrl ++ "/" ++ l.raw else l.raw) ++
        ["#EXT-X-ENDLIST"] := by
  induction lines with
  | nil => rfl
  | cons l rest ih => rw [write_output, ih, List.map_cons, List.cons_append]

theorem belowPB_of_le_extSum (xs : List (ℕ × MLine)) (e t : ℚ)
    (hpos : ∀ x ∈ xs, x.2.isExtinf = true → 0 < x.2.dur)
    (hle : t + extSumP xs ≤ e) : belowPB e t xs = true := by
  induction xs generalizing t with
  | nil => rfl
  | cons x xs ih =>
    obtain ⟨i, l⟩ := x
    cases hl : l.isExtinf
    · rw [belowPB_cons_other hl]
      rw [extSumP_cons_other hl] at hle
      exact ih t (fun y hy => hpos y (List.mem_cons_of_mem _ hy)) hle
    · rw [belowPB_cons_extinf hl]
      rw [extSumP_cons_extinf hl] at hle
      have hdur : 0 < l.dur := hpos (i, l) (List.mem_cons_self _ _) hl
      have hrest : 0 ≤ extSumP xs :=
        extSumP_nonneg fun y hy hyl => le_of_lt (hpos y (List.mem_cons_of_mem _ hy) hyl)
      have hlt : t < e := by linarith
      rw [decide_eq_true hlt, Bool.true_and]
      exact ih (t + l.dur) (fun y hy => hpos y (List.mem_cons_of_mem _ hy)) (by linarith)

theorem filterGo_inside_all (xs : List (ℕ × MLine)) (e : ℚ) :
    ∀ t : ℚ, 0 ≤ t →
    belowPB e t xs = true →
    (∀ x ∈ xs, x.2.isExtinf = true → 0 ≤ x.2.dur) →
    (∀ x ∈ xs, x.2.isExtinf = true → x.2.endsTs = false) →
    ((filterGo xs 0 e t true false).map Prod.snd).filter segLine =
      (xs.map Prod.snd).filter segLine := by
  induction xs with
  | nil => intro t _ _ _ _; rfl
  | cons x xs ih =>
    intro t ht hbel hpos hts
    obtain ⟨i, l⟩ := x
    cases hl : l.isExtinf
    · have hrec := ih t ht (by rwa [belowPB_cons_other hl] at hbel)
        (fun y hy => hpos y (List.mem_cons_of_mem _ hy))
        (fun y hy => hts y (List.mem_cons_of_mem _ hy))
      rw [filterGo_cons_other hl]
      cases hts' : l.endsTs
      · simp only [if_neg (Bool.false_ne_true), List.nil_append, Bool.true_and, hts',
          List.map_cons, List.filter_cons]
        simp [segLine, hl, hts', hrec]
      · simp only [if_neg (Bool.false_ne_true), List.nil_append, Bool.true_and, hts',
          if_pos rfl, List.singleton_append, List.map_cons, List.filter_cons]
        simp [segLine, hl, hts', hrec]
    · rw [belowPB_cons_extinf hl] at hbel
      obtain ⟨hlt, hbel'⟩ := Bool.and_eq_true_iff.mp hbel
      have hlt' : t < e := of_decide_eq_true hlt
      have hdur : 0 ≤ l.dur := hpos (i, l) (List.mem_cons_self _ _) hl
      have hts' : l.endsTs = false := hts (i, l) (List.mem_cons_self _ _) hl
      have hlatch : latch 0 t true = true := by rw [latch, if_pos ht]
      have hrec := ih (t + l.dur) (by linarith) hbel'
        (fun y hy => hpos y (List.mem_cons_of_mem _ hy))
        (fun y hy => hts y (List.mem_cons_of_mem _ hy))
      rw [filterGo_cons_extinf hl, if_neg (not_le.mpr hlt'), hlatch]
      simp only [if_pos rfl, hts', Bool.and_false, if_neg (Bool.false_ne_true),
        List.nil_append, List.singleton_append, List.map_cons, List.filter_cons]
      simp [segLine, hl, hrec]

theorem filterGo_header_all (xs : List (ℕ × MLine)) (e : ℚ) :
    ∀ t : ℚ, 0 ≤ t →
    belowPB e t xs = true →
    (∀ x ∈ xs, x.2.isExtinf = true → 0 ≤ x.2.dur) →
    (∀ x ∈ xs, x.2.isExtinf = true → x.2.endsTs = false) →
    ((filterGo xs 0 e t false true).map Prod.snd).filter segLine =
      (xs.map Prod.snd).filter segLine := by
  induction xs with
  | nil => intro t _ _ _ _; rfl
  | cons x xs ih =>
    intro t ht hbel hpos hts
    obtain ⟨i, l⟩ := x
    cases hl : l.isExtinf
    · have hrec := ih t ht (by rwa [belowPB_cons_other hl] at hbel)
        (fun y hy => hpos y (List.mem_cons_of_mem _ hy))
        (fun y hy => hts y (List.mem_cons_of_mem _ hy))
      rw [filterGo_cons_other hl]
      cases hts' : l.endsTs <;> simp [List.filter_cons, segLine, hl, hts', hrec]
    · rw [belowPB_cons_extinf hl] at hbel
      obtain ⟨hlt, hbel'⟩ := Bool.and_eq_true_iff.mp hbel
      have hlt' : t < e := of_decide_eq_true hlt
      have hdur : 0 ≤ l.dur := hpos (i, l) (List.mem_cons_self _ _) hl
      have hts' : l.endsTs = false := hts (i, l) (List.mem_cons_self _ _) hl
      have hlatch : latch 0 t false = true := by rw [latch, if_pos ht]
      have hrec := filterGo_inside_all xs e (t + l.dur) (by linarith) hbel'
        (fun y hy => hpos y (List.mem_cons_of_mem _ hy))
        (fun y hy => hts y (List.mem_cons_of_mem _ hy))
      rw [filterGo_cons_extinf hl, if_neg (not_le.mpr hlt'), hlatch]
      simp only [if_pos rfl, hts', Bool.and_false, if_neg (Bool.false_ne_true),
        List.nil_append, List.singleton_append, List.map_cons, List.filter_cons]
      simp [segLine, hl, hrec]

/-- Claim C8 (counterexample): a playlist of total duration D = 1 whose final
segment has duration 0 (cumulative start = D = 1).  With window [0, 1) —
`end_seconds = D` — the zero-duration final segment's lines are dropped: the
scan breaks at its duration line, so not every segment line is kept. -/
theorem full_window_zero_duration_dropped :
    totalDuration [extinfLine 1, tsLine "a.ts", extinfLine 0, tsLine "b.ts"] = 1 ∧
    filter_segments [extinfLine 1, tsLine "a.ts", extinfLine 0, tsLine "b.ts"] 0 1 =
      [extinfLine 1, tsLine "a.ts"] := by
  constructor
  · norm_num [totalDuration, extSumP, List.enum, List.enumFrom, extinfLine, tsLine]
  · norm_num [filter_segments, keptPairs, filterGo, latch, List.enum, List.enumFrom,
      extinfLine, tsLine]

/-- Claim C8 (amended): for every playlist whose segments all have strictly
positive duration (and whose duration-annotation lines are not themselves
`.ts` references), filtering with a window [0, e) where e is at least the
total cumulative duration keeps every duration-annotation line and every
segment-reference line, in original order, and the written output ends with
the end-of-list marker. -/
theorem full_window_keeps_all (lines : List MLine) (e : ℚ) (baseUrl : String)
    (hpos : ∀ l ∈ lines, l.isExtinf = true → 0 < l.dur)
    (hts : ∀ l ∈ lines, l.isExtinf = true → l.endsTs = false)
    (he : totalDuration lines ≤ e) :
    (filter_segments lines 0 e).filter segLine = lines.filter segLine ∧
    (write_output (filter_segments lines 0 e) baseUrl).getLast? =
      some "#EXT-X-ENDLIST" := by
  have hbel : belowPB e 0 lines.enum = true :=
    belowPB_of_le_extSum lines.enum e 0
      (fun x hx => hpos x.2 (List.snd_mem_of_mem_enum hx))
      (by rw [zero_add]; exact he)
  constructor
  · have h := filterGo_header_all lines.enum e 0 le_rfl hbel
      (fun x hx hxl => le_of_lt (hpos x.2 (List.snd_mem_of_mem_enum hx) hxl))
      (fun x hx => hts x.2 (List.snd_mem_of_mem_enum hx))
    rw [List.enum_map_snd] at h
    rw [filter_segments, keptPairs]
    exact h
  · rw [write_output_eq, List.getLast?_concat]

/-- Witness for the amended C8: header plus one positive-duration segment,
window [0, 1) covering the whole playlist. -/
theorem full_window_keeps_all_witness :
    (filter_segments [hdrLine, extinfLine 1, tsLine "a.ts"] 0 1).filter segLine =
      [hdrLine, extinfLine 1, tsLine "a.ts"].filter segLine ∧
    (write_output (filter_segments [hdrLine, extinfLine 1, tsLine "a.ts"] 0 1)
      "http://h").getLast? = some "#EXT-X-ENDLIST" :=
  full_window_keeps_all [hdrLine, extinfLine 1, tsLine "a.ts"] 1 "http://h"
    (by simp [hdrLine, extinfLine, tsLine])
    (by simp [hdrLine, extinfLine, tsLine])
    (by simp [totalDuration, extSumP, List.enum, List.enumFrom, hdrLine, extinfLine,
      tsLine])

/-- Claim C9: the set of duration-annotation lines kept by `filter_segments`
is contiguous in the original segment order: `inside_range`, once latched, is
never reset, and the break ends the scan for good, so any duration line lying
between two kept duration lines is itself kept — there are no gaps in the
kept run. -/
theorem kept_segments_contiguous (lines : List MLine) (s e : ℚ) (i j k : ℕ)
    (li lj lk : MLine)
    (hi : (i, li) ∈ keptPairs lines s e) (hk : (k, lk) ∈ keptPairs lines s e)
    (hli : li.isExtinf = true) (hlk : lk.isExtinf = true)
    (hj : (j, lj) ∈ lines.enum) (hlj : lj.isExtinf = true)
    (hij : i ≤ j) (hjk : j ≤ k) :
    (j, lj) ∈ keptPairs lines s e := by
  rw [keptPairs, enum_eq_enumFrom] at hi hk ⊢
  rw [enum_eq_enumFrom] at hj
  obtain ⟨Ai, Bi, heqi, _, hinsi⟩ := conditions_of_mem_filterGo hi hli
  obtain ⟨Ak, Bk, heqk, hbelk, _⟩ := conditions_of_mem_filterGo hk hlk
  have hquieti : belowPB s 0 (Ai ++ [(i, li)]) = false := by
    rcases hinsi with hfalse | hf
    · exact absurd hfalse (by simp)
    · exact hf
  obtain ⟨Aj, Bj, heqj⟩ := List.append_of_mem hj
  obtain ⟨Z₁, hZ₁⟩ := split_below_extend heqi heqj hij
  obtain ⟨Z₂, hZ₂⟩ := split_below_extend heqj heqk hjk
  apply mem_filterGo_of_conditions heqj hlj
  · rw [hZ₂] at hbelk
    exact belowPB_of_append hbelk
  · right
    rw [hZ₁]
    exact belowPB_append_false Z₁ hquieti

/-- Witness for C9 at a three-segment playlist where all segments are kept. -/
theorem kept_segments_contiguous_witness :
    (2, extinfLine 0) ∈
      keptPairs [extinfLine 0, tsLine "a.ts", extinfLine 0, tsLine "b.ts",
        extinfLine 0, tsLine "c.ts"] 0 1 :=
  kept_segments_contiguous
    [extinfLine 0, tsLine "a.ts", extinfLine 0, tsLine "b.ts", extinfLine 0,
      tsLine "c.ts"] 0 1 0 2 4 (extinfLine 0) (extinfLine 0) (extinfLine 0)
    (by simp [keptPairs, filterGo, latch, List.enum, List.enumFrom, extinfLine, tsLine])
    (by simp [keptPairs, filterGo, latch, List.enum, List.enumFrom, extinfLine, tsLine])
    rfl rfl
    (by simp [List.enum, List.enumFrom])
    rfl (by omega) (by omega)
